import Mathlib

/-!
Verification of the checkpoint core of the dozer streaming engine
(`dozer-core/src/checkpoint/mod.rs`), shallowly embedded in Lean.

Bytes are `List Nat` (each entry one byte), storage keys are `List Char`.
Machine integers (`u64`, `usize`) are `Nat` with explicit `% 2 ^ 64`
reasoning where overflow matters.
-/

namespace Dozer

/-! ## Little-endian `u64` encoding

Embeds Rust's `u64::to_le_bytes` / `u64::from_le_bytes` as used by
`write_record_store_slice_data` and `read_record_store_slice_data`. -/

/-- `u64::to_le_bytes`: the eight little-endian bytes of `n` (for `n < 2 ^ 64`). -/
def u64ToLeBytes (n : Nat) : List Nat :=
  [n % 256, n / 256 % 256, n / 256 ^ 2 % 256, n / 256 ^ 3 % 256,
   n / 256 ^ 4 % 256, n / 256 ^ 5 % 256, n / 256 ^ 6 % 256, n / 256 ^ 7 % 256]

/-- `u64::from_le_bytes` applied to the first eight bytes of `bs`. -/
def leBytesToU64 (bs : List Nat) : Nat :=
  (bs.take 8).foldr (fun b acc => acc * 256 + b) 0

theorem length_u64ToLeBytes (n : Nat) : (u64ToLeBytes n).length = 8 := rfl

theorem leBytesToU64_u64ToLeBytes (n : Nat) (rest : List Nat) (h : n < 2 ^ 64) :
    leBytesToU64 (u64ToLeBytes n ++ rest) = n := by
  simp only [leBytesToU64, u64ToLeBytes, List.cons_append, List.nil_append]
  norm_num [List.take, List.foldr]
  omega

/-! ## Source states

`SourceStates` is `BTreeMap<NodeHandle, OpIdentifier>` from `dozer_types::node`,
which is not under `src/`; the spec describes a node handle as
`(optional numeric scope, textual id)` and a source position as
`(txn_id, seq_in_txn)`. -/

/-- Modelled from the spec: a node handle is `(optional numeric scope, textual id)`
(`dozer_types::node::NodeHandle`, not under `src/`). The scope is a `u16`;
the id is kept as its UTF-8 bytes. -/
structure NodeHandle where
  ns : Option Nat
  id : List Nat
deriving DecidableEq, Repr

/-- Modelled from the spec: a source position is the pair `(txn_id, seq_in_txn)`
(`dozer_types::node::OpIdentifier`, not under `src/`); both components are `u64`. -/
structure OpIdentifier where
  txid : Nat
  seqInTx : Nat
deriving DecidableEq, Repr

/-- Modelled from the spec: the source-states map `node_handle → source_position`
(`dozer_types::node::SourceStates`, a `BTreeMap`, not under `src/`), kept as an
association list in key order. -/
def SourceStates : Type := List (NodeHandle × OpIdentifier)

instance : DecidableEq SourceStates :=
  inferInstanceAs (DecidableEq (List (NodeHandle × OpIdentifier)))

/-- `BTreeMap::get` on the association list: the first binding of the handle. -/
def SourceStates.get (s : SourceStates) (h : NodeHandle) : Option OpIdentifier :=
  match s with
  | [] => none
  | (k, v) :: rest => if k = h then some v else SourceStates.get rest h

/-! ## The bincode encoding of `SourceStates`

Modelled from the spec: `source_states` is encoded with a stable binary
serializer using fixed-width little-endian integers and length-prefixed
strings (`bincode` with fixint encoding, not under `src/`): a map is its
`u64` length followed by its entries in key order; an `Option` is a one-byte
tag (`0`/`1`) followed by the value; a `u16` is two little-endian bytes;
a string is its `u64` byte length followed by its bytes. -/

/-- Length-prefixed byte string: `u64` length then the bytes. -/
def serializeBytes (s : List Nat) : List Nat :=
  u64ToLeBytes s.length ++ s

def serializeNodeHandle (h : NodeHandle) : List Nat :=
  (match h.ns with
   | none => [0]
   | some v => [1, v % 256, v / 256 % 256]) ++ serializeBytes h.id

def serializeOpIdentifier (op : OpIdentifier) : List Nat :=
  u64ToLeBytes op.txid ++ u64ToLeBytes op.seqInTx

/-- Modelled from the spec: `bincode::serialize` of a `SourceStates` map. -/
def serializeSourceStates (s : SourceStates) : List Nat :=
  u64ToLeBytes (List.length s) ++
    (s.map (fun e => serializeNodeHandle e.1 ++ serializeOpIdentifier e.2)).flatten

/-- Take `n` bytes off the front, failing when fewer remain. -/
def readBytesN (n : Nat) (bs : List Nat) : Option (List Nat × List Nat) :=
  if n ≤ bs.length then some (bs.take n, bs.drop n) else none

def readU64 (bs : List Nat) : Option (Nat × List Nat) :=
  (readBytesN 8 bs).map (fun p => (leBytesToU64 p.1, p.2))

def readLpBytes (bs : List Nat) : Option (List Nat × List Nat) :=
  (readU64 bs).bind (fun p => readBytesN p.1 p.2)

def readNodeHandle (bs : List Nat) : Option (NodeHandle × List Nat) :=
  match bs with
  | 0 :: r => (readLpBytes r).map (fun p => (⟨none, p.1⟩, p.2))
  | 1 :: b0 :: b1 :: r => (readLpBytes r).map (fun p => (⟨some (b0 + b1 * 256), p.1⟩, p.2))
  | _ => none

def readOpIdentifier (bs : List Nat) : Option (OpIdentifier × List Nat) :=
  (readU64 bs).bind (fun p =>
    (readU64 p.2).map (fun q => (⟨p.1, q.1⟩, q.2)))

def readEntries : Nat → List Nat → Option (List (NodeHandle × OpIdentifier) × List Nat)
  | 0, bs => some ([], bs)
  | n + 1, bs =>
    (readNodeHandle bs).bind (fun p =>
      (readOpIdentifier p.2).bind (fun q =>
        (readEntries n q.2).map (fun r => ((p.1, q.1) :: r.1, r.2))))

/-- Modelled from the spec: `bincode::deserialize::<SourceStates>` (which accepts
trailing bytes) as the partial inverse of `serializeSourceStates`. -/
def deserializeSourceStates (bs : List Nat) : Option (SourceStates × List Nat) :=
  (readU64 bs).bind (fun p => readEntries p.1 p.2)

def bincodeDeserialize (bs : List Nat) : Option SourceStates :=
  (deserializeSourceStates bs).map Prod.fst

/-! Well-formedness: the `u64`/`u16` fields actually fit their machine widths,
so that serialization is the identity on re-reading. -/

def wfNodeHandle (h : NodeHandle) : Bool :=
  h.ns.all (fun v => v < 2 ^ 16) && h.id.length < 2 ^ 64

def wfEntry (e : NodeHandle × OpIdentifier) : Bool :=
  wfNodeHandle e.1 && e.2.txid < 2 ^ 64 && e.2.seqInTx < 2 ^ 64

def wfSourceStates (s : SourceStates) : Bool :=
  List.length s < 2 ^ 64 && s.all wfEntry &&
    (serializeSourceStates s).length < 2 ^ 64

/-! Round-trip lemmas for the source-states encoding. -/

theorem readBytesN_append (l rest : List Nat) :
    readBytesN l.length (l ++ rest) = some (l, rest) := by
  simp [readBytesN, List.take_left, List.drop_left]

theorem readU64_append (n : Nat) (rest : List Nat) (h : n < 2 ^ 64) :
    readU64 (u64ToLeBytes n ++ rest) = some (n, rest) := by
  have h8 : readBytesN 8 (u64ToLeBytes n ++ rest) = some (u64ToLeBytes n, rest) := by
    have := readBytesN_append (u64ToLeBytes n) rest
    rwa [length_u64ToLeBytes] at this
  have hle : leBytesToU64 (u64ToLeBytes n) = n := by
    simpa using leBytesToU64_u64ToLeBytes n [] h
  simp [readU64, h8, hle]

theorem readLpBytes_append (l rest : List Nat) (h : l.length < 2 ^ 64) :
    readLpBytes (serializeBytes l ++ rest) = some (l, rest) := by
  simp only [readLpBytes, serializeBytes, List.append_assoc,
    readU64_append l.length (l ++ rest) h, Option.bind_some]
  exact readBytesN_append l rest

theorem readNodeHandle_append (nh : NodeHandle) (rest : List Nat)
    (h : wfNodeHandle nh = true) :
    readNodeHandle (serializeNodeHandle nh ++ rest) = some (nh, rest) := by
  simp only [wfNodeHandle, Bool.and_eq_true, decide_eq_true_eq] at h
  obtain ⟨hns, hid⟩ := h
  cases hnh : nh.ns with
  | none =>
    simp only [serializeNodeHandle, hnh, List.cons_append, List.nil_append, readNodeHandle,
      readLpBytes_append nh.id rest hid, Option.map_some]
    cases nh
    simp_all
  | some v =>
    have hv : v < 2 ^ 16 := by
      have := hns
      rw [hnh] at this
      simpa using this
    simp only [serializeNodeHandle, hnh, List.cons_append, List.nil_append, readNodeHandle,
      readLpBytes_append nh.id rest hid, Option.map_some]
    cases nh
    simp_all
    omega

theorem readOpIdentifier_append (op : OpIdentifier) (rest : List Nat)
    (h1 : op.txid < 2 ^ 64) (h2 : op.seqInTx < 2 ^ 64) :
    readOpIdentifier (serializeOpIdentifier op ++ rest) = some (op, rest) := by
  simp [serializeOpIdentifier, List.append_assoc, readOpIdentifier,
    readU64_append op.txid _ h1, readU64_append op.seqInTx rest h2]

theorem readEntries_append (s : List (NodeHandle × OpIdentifier)) (rest : List Nat)
    (h : s.all wfEntry = true) :
    readEntries s.length
      ((s.map (fun e => serializeNodeHandle e.1 ++ serializeOpIdentifier e.2)).flatten ++ rest) =
      some (s, rest) := by
  induction s with
  | nil => simp [readEntries]
  | cons e tl ih =>
    simp only [List.all_cons, Bool.and_eq_true] at h
    obtain ⟨he, htl⟩ := h
    simp only [wfEntry, Bool.and_eq_true, decide_eq_true_eq] at he
    simp [List.map_cons, List.flatten_cons, List.length_cons, readEntries,
      List.append_assoc, readNodeHandle_append e.1 _ he.1.1,
      readOpIdentifier_append e.2 _ he.1.2 he.2, ih htl]

theorem deserializeSourceStates_serializeSourceStates (s : SourceStates) (rest : List Nat)
    (h : wfSourceStates s = true) :
    deserializeSourceStates (serializeSourceStates s ++ rest) = some (s, rest) := by
  simp only [wfSourceStates, Bool.and_eq_true, decide_eq_true_eq] at h
  simp only [deserializeSourceStates, serializeSourceStates, List.append_assoc,
    readU64_append (List.length s) _ h.1.1, Option.bind_some]
  exact readEntries_append s rest h.1.2

/-! ## Record store

`ProcessorRecordStore` lives in `dozer-core/src/processor_record`, which is not
under `src/`; the spec gives its contract in §4.3. -/

/-- Modelled from the spec: a record is an opaque tuple of fields, kept here as
its serialized bytes (`ProcessorRecordStore` is not under `src/`). -/
def RecordData : Type := List Nat

instance : DecidableEq RecordData := inferInstanceAs (DecidableEq (List Nat))

/-- Modelled from the spec: the append-only record store, a mapping
`index → Record` whose indices form a contiguous prefix `[0, N)`. -/
structure ProcessorRecordStore where
  records : List RecordData
deriving DecidableEq

def ProcessorRecordStore.num_records (rs : ProcessorRecordStore) : Nat :=
  rs.records.length

/-- Modelled from the spec: the serialized delta of a record list — the `u64`
record count followed by each record as a length-prefixed byte string. -/
def encodeRecords (l : List RecordData) : List Nat :=
  u64ToLeBytes l.length ++ (l.map serializeBytes).flatten

def readRecords : Nat → List Nat → Option (List RecordData × List Nat)
  | 0, bs => some ([], bs)
  | n + 1, bs =>
    (readLpBytes bs).bind (fun p =>
      (readRecords n p.2).map (fun r => (p.1 :: r.1, r.2)))

def decodeRecords (bs : List Nat) : Option (List RecordData) :=
  (readU64 bs).bind (fun p =>
    match readRecords p.1 p.2 with
    | some (l, []) => some l
    | _ => none)

/-- Modelled from the spec: `serialize_slice(from_index)` serializes records
`[from_index, num_records())` as a delta and returns the bytes and the number
of records serialized. -/
def ProcessorRecordStore.serialize_slice (rs : ProcessorRecordStore) (fromIdx : Nat) :
    List Nat × Nat :=
  (encodeRecords (rs.records.drop fromIdx), rs.records.length - fromIdx)

/-- Modelled from the spec: `deserialize_and_extend` appends the records of a
previously serialized delta, preserving their indices. -/
def ProcessorRecordStore.deserialize_and_extend (rs : ProcessorRecordStore) (bs : List Nat) :
    Option ProcessorRecordStore :=
  (decodeRecords bs).map (fun l => ⟨rs.records ++ l⟩)

def wfRecords (l : List RecordData) : Bool :=
  l.length < 2 ^ 64 && l.all (fun r => List.length r < 2 ^ 64)

theorem readRecords_append (l : List RecordData) (rest : List Nat)
    (h : l.all (fun r => List.length r < 2 ^ 64) = true) :
    readRecords l.length ((l.map serializeBytes).flatten ++ rest) = some (l, rest) := by
  induction l with
  | nil => simp [readRecords]
  | cons r tl ih =>
    simp only [List.all_cons, Bool.and_eq_true, decide_eq_true_eq] at h
    simp [readRecords, List.append_assoc, readLpBytes_append r _ h.1, ih h.2]

theorem decodeRecords_encodeRecords (l : List RecordData) (h : wfRecords l = true) :
    decodeRecords (encodeRecords l) = some l := by
  simp only [wfRecords, Bool.and_eq_true, decide_eq_true_eq] at h
  have hr := readRecords_append l [] h.2
  simp only [List.append_nil] at hr
  have hu : readU64 (u64ToLeBytes l.length ++ (l.map serializeBytes).flatten) =
      some (l.length, (l.map serializeBytes).flatten) := readU64_append _ _ h.1
  simp [decodeRecords, encodeRecords, hu, hr]

/-! ## Reading a slice object back -/

/-- `ReadCheckpointError` (`checkpoint/mod.rs:47-53`). -/
inductive ReadCheckpointError where
  | notEnoughData (expected remaining : Nat)
  | bincode
deriving DecidableEq

/-- `CheckpointFactory::read_record_store_slice_data` (`checkpoint/mod.rs:189-211`):
read the 8-byte little-endian source-states length, then deserialize that many
bytes as the source-states map, returning it with the remaining bytes. -/
def read_record_store_slice_data (data : List Nat) :
    Except ReadCheckpointError (SourceStates × List Nat) :=
  if data.length < 8 then
    .error (.notEnoughData 8 data.length)
  else
    let source_states_len := leBytesToU64 (data.take 8)
    let rest := data.drop 8
    if rest.length < source_states_len then
      .error (.notEnoughData source_states_len rest.length)
    else
      match bincodeDeserialize (rest.take source_states_len) with
      | some source_states => .ok (source_states, rest.drop source_states_len)
      | none => .error .bincode

/-! ## Upload queue commands and the commit path

Embeds `CheckpointFactory::write_record_store_slice` and
`write_record_store_slice_data` (`checkpoint/mod.rs:154-187`). The queue is a
bounded channel to a single upload worker; `queueOpen` records whether the
worker (receiving half) is still alive — a send fails iff it is gone. -/

inductive QueueCommand where
  | createUpload (key : List Char)
  | uploadChunk (key : List Char) (data : List Nat)
  | completeUpload (key : List Char)
deriving DecidableEq

/-- `ExecutionError` (`dozer-core/src/errors.rs`), restricted to the variants
the checkpoint module produces. -/
inductive ExecutionError where
  | checkpointWriterThreadPanicked
  | unrecognizedCheckpoint (key : List Char)
  | readCheckpoint (e : ReadCheckpointError)
  | recordStore
deriving DecidableEq

/-- `bincode::serialize` of the source-states map. It never fails for this
type; the `Option` records that in Rust it returns a `Result` which the code
unwraps with `.expect("Source states should be serializable")`. -/
def bincodeSerialize (s : SourceStates) : Option (List Nat) :=
  some (serializeSourceStates s)

/-- Events of one commit, in program order: the lock events of the factory
state mutex, the slice serialization (recording the start index and the count
serialized) which happens while the mutex is held, and each successful
enqueue onto the upload queue. -/
inductive CommitEvent where
  | lockAcquire
  | serializeSlice (fromIdx n : Nat)
  | lockRelease
  | enqueue (c : QueueCommand)
deriving DecidableEq

inductive CommitOutcome where
  | panicked
  | sendFailed
  | committed
deriving DecidableEq

/-- `CheckpointFactory::write_record_store_slice_data` (`checkpoint/mod.rs:169-187`):
serialize the source states, then enqueue `CreateUpload`, the `u64` little-endian
length of the serialized states, the serialized states, the record data, and
`CompleteUpload`, propagating a send error. The panic outcome models the
`.expect` on serialization. -/
def write_record_store_slice_data (queueOpen : Bool) (key : List Char)
    (source_states : SourceStates) (data : List Nat) :
    List CommitEvent × CommitOutcome :=
  match bincodeSerialize source_states with
  | none => ([], .panicked)
  | some s =>
    if queueOpen then
      ([.enqueue (.createUpload key),
        .enqueue (.uploadChunk key (u64ToLeBytes s.length)),
        .enqueue (.uploadChunk key s),
        .enqueue (.uploadChunk key data),
        .enqueue (.completeUpload key)], .committed)
    else ([], .sendFailed)

/-- The result of `write_record_store_slice`: a `Result<(), ExecutionError>`,
with the panic of the inner `.expect` kept apart. -/
inductive SliceOutcome where
  | panicked
  | failed (e : ExecutionError)
  | committed
deriving DecidableEq

/-- `CheckpointFactory::write_record_store_slice` (`checkpoint/mod.rs:154-167`):
lock the state mutex, serialize the slice starting at `next_record_index`,
advance `next_record_index` by the number of records serialized, drop the lock,
then enqueue the slice data, mapping a send error to
`CheckpointWriterThreadPanicked`. Returns the new `next_record_index`, the
event trace, and the outcome. -/
def write_record_store_slice (rs : ProcessorRecordStore) (next_record_index : Nat)
    (queueOpen : Bool) (key : List Char) (source_states : SourceStates) :
    Nat × List CommitEvent × SliceOutcome :=
  let serialized := rs.serialize_slice next_record_index
  let sends := write_record_store_slice_data queueOpen key source_states serialized.1
  (next_record_index + serialized.2,
   [.lockAcquire, .serializeSlice next_record_index serialized.2, .lockRelease] ++ sends.1,
   match sends.2 with
   | .panicked => .panicked
   | .sendFailed => .failed .checkpointWriterThreadPanicked
   | .committed => .committed)

/-- The outcome of `Drop for CheckpointWriter`: either a normal return with the
errors that were logged, or an escaped panic. -/
inductive DropOutcome where
  | finished (loggedErrors : List ExecutionError)
  | panicked
deriving DecidableEq

/-- `impl Drop for CheckpointWriter` (`checkpoint/mod.rs:284-290`): run
`write_record_store_slice` for the writer's slice key and source states; a
returned error is only logged with `error!`. -/
def checkpointWriterDrop (rs : ProcessorRecordStore) (next_record_index : Nat)
    (queueOpen : Bool) (key : List Char) (source_states : SourceStates) :
    Nat × List CommitEvent × DropOutcome :=
  let w := write_record_store_slice rs next_record_index queueOpen key source_states
  (w.1, w.2.1,
   match w.2.2 with
   | .panicked => .panicked
   | .failed e => .finished [e]
   | .committed => .finished [])

/-! ## The checkpoint descriptor -/

/-- `Checkpoint` (`checkpoint/mod.rs:55-62`); `num_slices` is a `NonZeroUsize`,
modelled as a `Nat` together with its positivity. -/
structure Checkpoint where
  num_slices : Nat
  num_slices_pos : 0 < num_slices
  processor_prefix : List Char
  epoch_id : Nat
  source_states : SourceStates

/-- `OptionCheckpoint` (`checkpoint/mod.rs:64-67`). -/
structure OptionCheckpoint where
  checkpoint : Option Checkpoint

/-- `OptionCheckpoint::num_slices` (`checkpoint/mod.rs:70-74`). -/
def OptionCheckpoint.num_slices (c : OptionCheckpoint) : Nat :=
  match c.checkpoint with
  | none => 0
  | some cp => cp.num_slices

/-- `OptionCheckpoint::next_epoch_id` (`checkpoint/mod.rs:76-80`). -/
def OptionCheckpoint.next_epoch_id (c : OptionCheckpoint) : Nat :=
  match c.checkpoint with
  | none => 0
  | some cp => cp.epoch_id + 1

/-- `OptionCheckpoint::get_source_state` (`checkpoint/mod.rs:82-87`). -/
def OptionCheckpoint.get_source_state (c : OptionCheckpoint) (h : NodeHandle) :
    Option OpIdentifier :=
  match c.checkpoint with
  | none => none
  | some cp => cp.source_states.get h

/-! ## Epoch-id formatting and parsing

`CheckpointWriter::new` (`checkpoint/mod.rs:244-261`) formats the epoch id with
`format!("{:020}", epoch_id)` — zero-padded to the maximal number of `u64`
digits; recovery parses it back with `str::parse::<u64>`. -/

/-- The `w` base-10 digits of `a`, most significant first (zero-padded). -/
def digitsBE : Nat → Nat → List Nat
  | 0, _ => []
  | w + 1, a => a / 10 ^ w :: digitsBE w (a % 10 ^ w)

/-- `format!("{:020}", epoch_id)`: the zero-padded 20-digit decimal string. -/
def format20 (epoch_id : Nat) : List Char :=
  (digitsBE 20 epoch_id).map Nat.digitChar

/-- Byte-wise lexicographic strict order on strings (as `Ord` on Rust `str`). -/
def lexLt : List Char → List Char → Bool
  | [], [] => false
  | [], _ :: _ => true
  | _ :: _, [] => false
  | a :: l1, b :: l2 => a.toNat < b.toNat || (a == b && lexLt l1 l2)

/-- The optional leading `+` sign accepted by `str::parse::<u64>`. -/
def stripPlus (s : List Char) : List Char :=
  match s with
  | '+' :: rest => rest
  | _ => s

/-- `str::parse::<u64>`: optional leading `+`, at least one digit, all digits,
value within `u64` range. -/
def parseU64 (s : List Char) : Option Nat :=
  let ds := stripPlus s
  if ds.isEmpty then none
  else if ds.all Char.isDigit then
    let v := ds.foldl (fun acc c => acc * 10 + (c.toNat - 48)) 0
    if v < 2 ^ 64 then some v else none
  else none

/-! ## Storage keys

`Utf8Path::join` on the forward-slash keys of
`record_store_prefix`, `processor_prefix` and `processor_key`
(`checkpoint/mod.rs:227-241`). -/

def joinPath (p : List Char) (name : List Char) : List Char :=
  p ++ '/' :: name

/-- `record_store_prefix(factory_prefix)` = `factory_prefix/record_store`. -/
def recordStorePrefixOf (pfx : List Char) : List Char :=
  joinPath pfx "record_store".toList

/-- `processor_prefix(factory_prefix, epoch_id)` = `factory_prefix/<epoch_id>`. -/
def processorPrefixOf (pfx : List Char) (epochStr : List Char) : List Char :=
  joinPath pfx epochStr

/-- Modelled from the spec: the string form of a node handle is
`[<scope>-]<id>` (the `Display` impl of `NodeHandle` is not under `src/`). -/
def nodeHandleString (h : NodeHandle) : List Char :=
  (match h.ns with
   | some v => Nat.toDigits 10 v ++ ['-']
   | none => []) ++ h.id.map Char.ofNat

/-- `processor_key(processor_prefix, node_handle)`. -/
def processor_key (processorPfx : List Char) (h : NodeHandle) : List Char :=
  joinPath processorPfx (nodeHandleString h)

/-- `Utf8Path::strip_prefix` on normalized forward-slash keys: drop the prefix
and its separating slash. -/
def stripPrefixSlash (key : List Char) (p : List Char) : Option (List Char) :=
  if key = p then some []
  else if (p ++ ['/']).isPrefixOf key then some (key.drop (p.length + 1))
  else none

/-- `OptionCheckpoint::load_processor_data` (`checkpoint/mod.rs:89-101`):
returns the downloaded bytes when a checkpoint is present, together with the
list of storage downloads performed. -/
def load_processor_data (c : OptionCheckpoint) (download : List Char → List Nat)
    (h : NodeHandle) : Option (List Nat) × List (List Char) :=
  match c.checkpoint with
  | none => (none, [])
  | some cp =>
    let key := processor_key cp.processor_prefix h
    (some (download key), [key])

/-! ## Recovery (`read_record_store_slices`, `checkpoint/mod.rs:292-358`)

The paginated listing is a list of pages, each a list of keys in listing
order; `download` is the (assumed successful) `download_object`. Each loop
iteration first inspects the last object of the page to update the
checkpoint descriptor, then downloads every object of the page in order and
extends the record store with its delta. -/

structure RecoveryState where
  record_store : ProcessorRecordStore
  last_checkpoint : Option Checkpoint

/-- The descriptor update for one page (`checkpoint/mod.rs:306-337`): strip and
parse the key of the page's last object, download and parse its slice data,
then overwrite `epoch_id`, `source_states` and `processor_prefix` and add the
page's object count to `num_slices`. -/
def updateLastCheckpoint (pfx : List Char) (download : List Char → List Nat)
    (last : Option Checkpoint) (page : List (List Char)) :
    Except ExecutionError (Option Checkpoint) :=
  match page with
  | [] => .ok last
  | a :: rest =>
    let key := (a :: rest).getLast (List.cons_ne_nil a rest)
    match stripPrefixSlash key (recordStorePrefixOf pfx) with
    | none => .error (.unrecognizedCheckpoint key)
    | some object_name =>
      match parseU64 object_name with
      | none => .error (.unrecognizedCheckpoint key)
      | some epoch_id =>
        match read_record_store_slice_data (download key) with
        | .error e => .error (.readCheckpoint e)
        | .ok (source_states, _) =>
          let pp := processorPrefixOf pfx object_name
          match last with
          | some lc => .ok (some { lc with
              num_slices := lc.num_slices + (a :: rest).length,
              num_slices_pos := Nat.lt_of_lt_of_le lc.num_slices_pos (Nat.le_add_right _ _),
              epoch_id := epoch_id,
              source_states := source_states,
              processor_prefix := pp })
          | none => .ok (some {
              num_slices := (a :: rest).length,
              num_slices_pos := Nat.succ_pos rest.length,
              processor_prefix := pp,
              epoch_id := epoch_id,
              source_states := source_states })

/-- One record-store extension (`checkpoint/mod.rs:339-344`): download an
object, parse its slice data, extend the record store with the delta. -/
def extendRecordStore (download : List Char → List Nat) (rs : ProcessorRecordStore)
    (key : List Char) : Except ExecutionError ProcessorRecordStore :=
  match read_record_store_slice_data (download key) with
  | .error e => .error (.readCheckpoint e)
  | .ok (_, d) =>
    match rs.deserialize_and_extend d with
    | some rs2 => .ok rs2
    | none => .error .recordStore

def extendRecordStoreAll (download : List Char → List Nat) (rs : ProcessorRecordStore) :
    List (List Char) → Except ExecutionError ProcessorRecordStore
  | [] => .ok rs
  | key :: rest =>
    match extendRecordStore download rs key with
    | .error e => .error e
    | .ok rs2 => extendRecordStoreAll download rs2 rest

/-- One iteration of the recovery loop, over one listing page. -/
def processPage (pfx : List Char) (download : List Char → List Nat)
    (st : RecoveryState) (page : List (List Char)) : Except ExecutionError RecoveryState :=
  match updateLastCheckpoint pfx download st.last_checkpoint page with
  | .error e => .error e
  | .ok last =>
    match extendRecordStoreAll download st.record_store page with
    | .error e => .error e
    | .ok rs => .ok ⟨rs, last⟩

def recoveryLoop (pfx : List Char) (download : List Char → List Nat) :
    RecoveryState → List (List (List Char)) → Except ExecutionError RecoveryState
  | st, [] => .ok st
  | st, page :: rest =>
    match processPage pfx download st page with
    | .error e => .error e
    | .ok st2 => recoveryLoop pfx download st2 rest

/-- `read_record_store_slices` (`checkpoint/mod.rs:292-358`): start from an
empty record store and no checkpoint, process every listing page, and return
the rebuilt record store and the checkpoint descriptor. -/
def read_record_store_slices (download : List Char → List Nat) (pfx : List Char)
    (pages : List (List (List Char))) :
    Except ExecutionError (ProcessorRecordStore × OptionCheckpoint) :=
  match recoveryLoop pfx download ⟨⟨[]⟩, none⟩ pages with
  | .error e => .error e
  | .ok st => .ok (st.record_store, ⟨st.last_checkpoint⟩)

/-! ## The storage effect of the upload queue

Modelled from the spec (the queue worker and `Storage` live in `dozer_log`,
not under `src/`): the single background worker applies commands in enqueue
order; parts are appended in call order and `complete` makes the object
visible atomically. -/

structure LocalStorage where
  pending : List (List Char × List Nat)
  completed : List (List Char × List Nat)

def lookupBytes : List (List Char × List Nat) → List Char → Option (List Nat)
  | [], _ => none
  | (k2, d) :: rest, k => if k2 = k then some d else lookupBytes rest k

def appendChunk : List (List Char × List Nat) → List Char → List Nat → List (List Char × List Nat)
  | [], _, _ => []
  | (k2, d2) :: rest, k, d =>
    if k2 = k then (k2, d2 ++ d) :: rest else (k2, d2) :: appendChunk rest k d

def removePending : List (List Char × List Nat) → List Char → List (List Char × List Nat)
  | [], _ => []
  | (k2, d2) :: rest, k => if k2 = k then rest else (k2, d2) :: removePending rest k

def applyCommand (s : LocalStorage) : QueueCommand → LocalStorage
  | .createUpload k => ⟨(k, []) :: removePending s.pending k, s.completed⟩
  | .uploadChunk k d => ⟨appendChunk s.pending k d, s.completed⟩
  | .completeUpload k =>
    match lookupBytes s.pending k with
    | some d => ⟨removePending s.pending k, s.completed ++ [(k, d)]⟩
    | none => s

def applyCommands (s : LocalStorage) (cmds : List QueueCommand) : LocalStorage :=
  cmds.foldl applyCommand s

/-- The keys visible to `list_objects`: completed objects only. -/
def listObjects (s : LocalStorage) : List (List Char) :=
  s.completed.map Prod.fst

/-! ## The commit-then-restart scenario -/

/-- The slice key minted by `CheckpointWriter::new` (`checkpoint/mod.rs:250-253`):
`factory_prefix/record_store/<epoch_id_20digit>`. -/
def slice_key (pfx : List Char) (epoch_id : Nat) : List Char :=
  joinPath (recordStorePrefixOf pfx) (format20 epoch_id)

def enqueuedCommands (events : List CommitEvent) : List QueueCommand :=
  events.filterMap (fun e =>
    match e with
    | .enqueue c => some c
    | _ => none)

/-- Commit one slice at `epoch_id` (dropping a `CheckpointWriter` with a live
upload worker), drain the worker onto an empty storage, then construct a
fresh factory over the same storage (`read_record_store_slices` over its
single listing page). -/
def commitAndRestart (pfx : List Char) (rs : ProcessorRecordStore) (idx epoch_id : Nat)
    (source_states : SourceStates) :
    Except ExecutionError (ProcessorRecordStore × OptionCheckpoint) :=
  let key := slice_key pfx epoch_id
  let w := write_record_store_slice rs idx true key source_states
  let storage := applyCommands ⟨[], []⟩ (enqueuedCommands w.2.1)
  let download := fun k => (lookupBytes storage.completed k).getD []
  read_record_store_slices download pfx [listObjects storage]

/-! ## Sequences of commits -/

/-- The empty source-states map. -/
def emptySourceStates : SourceStates := []

/-- A sequence of successful `write_record_store_slice` calls: `stores` are the
record-store contents observed by each call (the store may have been appended
to between calls). Returns the `[from, from + n)` range of each slice and the
final `next_record_index`. -/
def commitSlices (next_record_index : Nat) :
    List ProcessorRecordStore → List (Nat × Nat) × Nat
  | [] => ([], next_record_index)
  | rs :: rest =>
    let w := write_record_store_slice rs next_record_index true [] emptySourceStates
    let r := commitSlices w.1 rest
    ((next_record_index, (rs.serialize_slice next_record_index).2) :: r.1, r.2)

/-- The record store only grows: each call sees at least as many records as
`next_record_index`, and later calls see at least as many as earlier ones. -/
def ascendingFrom : Nat → List ProcessorRecordStore → Bool
  | _, [] => true
  | i, rs :: rest => decide (i ≤ rs.records.length) && ascendingFrom rs.records.length rest

/-- The record delta recovered from one slice object (empty on parse failure;
recovery only completes when every slice parses). -/
def sliceDelta (download : List Char → List Nat) (key : List Char) : List RecordData :=
  match read_record_store_slice_data (download key) with
  | .ok (_, d) => (decodeRecords d).getD []
  | .error _ => []

/-! # Theorems -/

/-! ## Parsing a well-formed slice object -/

theorem read_slice_of_serialized (S d : List Nat) (ss : SourceStates)
    (hlen : S.length < 2 ^ 64) (hdeser : bincodeDeserialize S = some ss) :
    read_record_store_slice_data (u64ToLeBytes S.length ++ (S ++ d)) = .ok (ss, d) := by
  have htake8 : (u64ToLeBytes S.length ++ (S ++ d)).take 8 = u64ToLeBytes S.length :=
    List.take_left' (length_u64ToLeBytes _)
  have hdrop8 : (u64ToLeBytes S.length ++ (S ++ d)).drop 8 = S ++ d :=
    List.drop_left' (length_u64ToLeBytes _)
  have hle : leBytesToU64 (u64ToLeBytes S.length) = S.length := by
    simpa using leBytesToU64_u64ToLeBytes S.length [] hlen
  have hlength : (u64ToLeBytes S.length ++ (S ++ d)).length = 8 + (S.length + d.length) := by
    simp [List.length_append, length_u64ToLeBytes]
  simp only [read_record_store_slice_data, htake8, hdrop8, hle, hlength]
  rw [if_neg (by omega)]
  rw [if_neg (by simp)]
  rw [List.take_left, List.drop_left]
  simp [hdeser]

theorem bincodeDeserialize_serializeSourceStates (ss : SourceStates)
    (h : wfSourceStates ss = true) :
    bincodeDeserialize (serializeSourceStates ss) = some ss := by
  have := deserializeSourceStates_serializeSourceStates ss [] h
  simp only [List.append_nil] at this
  simp [bincodeDeserialize, this]

theorem serializeSourceStates_length_lt (ss : SourceStates)
    (h : wfSourceStates ss = true) :
    (serializeSourceStates ss).length < 2 ^ 64 := by
  simp only [wfSourceStates, Bool.and_eq_true, decide_eq_true_eq] at h
  exact h.2

/-- The concatenation of the byte chunks of a list of queue commands. -/
def uploadedBytes (cmds : List QueueCommand) : List Nat :=
  (cmds.map (fun c =>
    match c with
    | .uploadChunk _ d => d
    | _ => [])).flatten

/-- C2: for every source-states map `S` and record-delta byte string `D`,
parsing the concatenation of the chunks emitted by
`write_record_store_slice_data` — the 8-byte little-endian length of the
serialized `S`, the serialized `S`, then `D` — succeeds and returns exactly
`S` and `D`: the slice-object layout round-trips. -/
theorem slice_object_roundtrip (key : List Char) (ss : SourceStates) (d : List Nat)
    (h : wfSourceStates ss = true) :
    read_record_store_slice_data
      (uploadedBytes (enqueuedCommands (write_record_store_slice_data true key ss d).1)) =
      .ok (ss, d) := by
  have hcmds : enqueuedCommands (write_record_store_slice_data true key ss d).1 =
      [.createUpload key,
       .uploadChunk key (u64ToLeBytes (serializeSourceStates ss).length),
       .uploadChunk key (serializeSourceStates ss),
       .uploadChunk key d,
       .completeUpload key] := rfl
  rw [hcmds]
  have : uploadedBytes
      [.createUpload key,
       .uploadChunk key (u64ToLeBytes (serializeSourceStates ss).length),
       .uploadChunk key (serializeSourceStates ss),
       .uploadChunk key d,
       .completeUpload key] =
      u64ToLeBytes (serializeSourceStates ss).length ++ (serializeSourceStates ss ++ d) := by
    simp [uploadedBytes]
  rw [this]
  exact read_slice_of_serialized _ _ _ (serializeSourceStates_length_lt ss h)
    (bincodeDeserialize_serializeSourceStates ss h)

/-- C2 witness at a concrete one-entry map and three-byte delta. -/
theorem slice_object_roundtrip_witness :
    read_record_store_slice_data
      (uploadedBytes (enqueuedCommands (write_record_store_slice_data true ['k']
        [(⟨some 1, [105, 100]⟩, ⟨1, 1⟩)] [7, 8, 9]).1)) =
      .ok ([(⟨some 1, [105, 100]⟩, ⟨1, 1⟩)], [7, 8, 9]) :=
  slice_object_roundtrip ['k'] [(⟨some 1, [105, 100]⟩, ⟨1, 1⟩)] [7, 8, 9] (by decide)

/-- C6: a slice whose 8-byte little-endian header claims more source-states
bytes than remain after the header fails to parse with
`NotEnoughData { expected: claimed, remaining: actually remaining }`. -/
theorem read_slice_not_enough_data (data : List Nat) (claimed : Nat)
    (h8 : 8 ≤ data.length) (hclaim : claimed = leBytesToU64 (data.take 8))
    (hshort : data.length - 8 < claimed) :
    read_record_store_slice_data data =
      .error (.notEnoughData claimed (data.length - 8)) := by
  simp only [read_record_store_slice_data, ← hclaim, List.length_drop]
  rw [if_neg (by omega), if_pos hshort]

/-- C6 witness: a header claiming 999 bytes over a 10-byte body yields
`NotEnoughData { expected: 999, remaining: 10 }`. -/
theorem read_slice_not_enough_data_witness :
    read_record_store_slice_data (u64ToLeBytes 999 ++ List.replicate 10 0) =
      .error (.notEnoughData 999 10) := by
  have := read_slice_not_enough_data (u64ToLeBytes 999 ++ List.replicate 10 0) 999
    (by decide) (by decide) (by decide)
  simpa using this

/-- C3: a successful `write_record_store_slice` locks the commit mutex,
serializes the record-store slice starting at `next_record_index` (while the
mutex is held), advances `next_record_index` by the number of records
serialized, releases the mutex before any enqueue, and then enqueues exactly
five commands for the slice key, in order: `CreateUpload`,
`UploadChunk(u64_le(|S|))`, `UploadChunk(S)`, `UploadChunk(data)`,
`CompleteUpload`, where `S` is the serialized source-states map. -/
theorem write_record_store_slice_trace (rs : ProcessorRecordStore)
    (next_record_index : Nat) (key : List Char) (ss : SourceStates) :
    write_record_store_slice rs next_record_index true key ss =
      (next_record_index + (rs.serialize_slice next_record_index).2,
       [.lockAcquire,
        .serializeSlice next_record_index (rs.serialize_slice next_record_index).2,
        .lockRelease,
        .enqueue (.createUpload key),
        .enqueue (.uploadChunk key (u64ToLeBytes (serializeSourceStates ss).length)),
        .enqueue (.uploadChunk key (serializeSourceStates ss)),
        .enqueue (.uploadChunk key (rs.serialize_slice next_record_index).1),
        .enqueue (.completeUpload key)],
       .committed) := rfl

/-- C9: dropping a `CheckpointWriter` never panics: the serialization
`.expect` never fires, and when the upload worker is gone the commit returns
`CheckpointWriterThreadPanicked`, which the `Drop` impl only logs. -/
theorem checkpointWriterDrop_no_panic (rs : ProcessorRecordStore)
    (next_record_index : Nat) (key : List Char) (ss : SourceStates) :
    (∀ queueOpen : Bool,
      (checkpointWriterDrop rs next_record_index queueOpen key ss).2.2 ≠ .panicked) ∧
    (write_record_store_slice rs next_record_index false key ss).2.2 =
      .failed .checkpointWriterThreadPanicked ∧
    (checkpointWriterDrop rs next_record_index false key ss).2.2 =
      .finished [.checkpointWriterThreadPanicked] := by
  refine ⟨?_, rfl, rfl⟩
  intro queueOpen
  cases queueOpen <;> simp [checkpointWriterDrop, write_record_store_slice,
    write_record_store_slice_data, bincodeSerialize]

/-- C10: with no checkpoint present, `num_slices` is `0`, `next_epoch_id` is
`0` (the first epoch id ever assigned), `get_source_state` is `None` for every
handle, and `load_processor_data` returns `Ok(None)` without performing any
download; conversely a present checkpoint always reports `num_slices ≥ 1`. -/
theorem optionCheckpoint_empty_accessors (download : List Char → List Nat)
    (h : NodeHandle) :
    (OptionCheckpoint.mk none).num_slices = 0 ∧
    (OptionCheckpoint.mk none).next_epoch_id = 0 ∧
    (OptionCheckpoint.mk none).get_source_state h = none ∧
    load_processor_data ⟨none⟩ download h = (none, []) ∧
    ∀ cp : Checkpoint, 1 ≤ (OptionCheckpoint.mk (some cp)).num_slices := by
  refine ⟨rfl, rfl, rfl, rfl, ?_⟩
  intro cp
  simpa [OptionCheckpoint.num_slices] using cp.num_slices_pos

/-! ## Zero-padded epoch ids: lexicographic order is numeric order -/

/-- Lexicographic strict order on digit lists. -/
def lexLtNat : List Nat → List Nat → Bool
  | [], [] => false
  | [], _ :: _ => true
  | _ :: _, [] => false
  | a :: l1, b :: l2 => a < b || (a == b && lexLtNat l1 l2)

theorem digitsBE_length : ∀ (w a : Nat), (digitsBE w a).length = w
  | 0, _ => rfl
  | w + 1, a => by simp [digitsBE, digitsBE_length w]

theorem digitsBE_lt_ten : ∀ (w a : Nat), a < 10 ^ w → ∀ d ∈ digitsBE w a, d < 10
  | 0, _, _ => by simp [digitsBE]
  | w + 1, a, ha => by
    intro d hd
    simp only [digitsBE, List.mem_cons] at hd
    rcases hd with rfl | hd
    · have : a < 10 ^ w * 10 := by
        rw [← pow_succ]
        exact ha
      exact Nat.div_lt_of_lt_mul this
    · exact digitsBE_lt_ten w (a % 10 ^ w) (Nat.mod_lt a (Nat.pos_pow_of_pos w (by norm_num))) d hd

theorem lexLtNat_digitsBE : ∀ (w a b : Nat), a < 10 ^ w → b < 10 ^ w →
    (lexLtNat (digitsBE w a) (digitsBE w b) = true ↔ a < b)
  | 0, a, b, ha, hb => by
    norm_num at ha hb
    simp [digitsBE, lexLtNat, ha, hb]
  | w + 1, a, b, ha, hb => by
    have hpos : 0 < 10 ^ w := Nat.pos_pow_of_pos w (by norm_num)
    have hma : a % 10 ^ w < 10 ^ w := Nat.mod_lt a hpos
    have hmb : b % 10 ^ w < 10 ^ w := Nat.mod_lt b hpos
    simp only [digitsBE, lexLtNat, Bool.or_eq_true, decide_eq_true_eq, Bool.and_eq_true,
      beq_iff_eq, lexLtNat_digitsBE w _ _ hma hmb]
    constructor
    · rintro (h | ⟨heq, hlt⟩)
      · exact Nat.lt_of_div_lt_div h
      · have e1 := Nat.div_add_mod a (10 ^ w)
        have e2 := Nat.div_add_mod b (10 ^ w)
        rw [heq] at e1
        calc a = 10 ^ w * (b / 10 ^ w) + a % 10 ^ w := e1.symm
          _ < 10 ^ w * (b / 10 ^ w) + b % 10 ^ w := Nat.add_lt_add_left hlt _
          _ = b := e2
    · intro h
      rcases Nat.lt_or_ge (a / 10 ^ w) (b / 10 ^ w) with hdiv | hdiv
      · exact Or.inl hdiv
      · have heq : a / 10 ^ w = b / 10 ^ w :=
          Nat.le_antisymm (Nat.div_le_div_right h.le) hdiv
        refine Or.inr ⟨heq, ?_⟩
        have e1 := Nat.div_add_mod a (10 ^ w)
        have e2 := Nat.div_add_mod b (10 ^ w)
        rw [heq] at e1
        have hsum : 10 ^ w * (b / 10 ^ w) + a % 10 ^ w <
            10 ^ w * (b / 10 ^ w) + b % 10 ^ w := by
          rw [e1, e2]
          exact h
        exact Nat.lt_of_add_lt_add_left hsum

theorem digitChar_toNat_of_lt : ∀ d < 10, (Nat.digitChar d).toNat = 48 + d := by decide

theorem digitChar_lt_iff : ∀ d1 < 10, ∀ d2 < 10,
    ((Nat.digitChar d1).toNat < (Nat.digitChar d2).toNat ↔ d1 < d2) := by decide

theorem digitChar_eq_iff : ∀ d1 < 10, ∀ d2 < 10,
    (Nat.digitChar d1 = Nat.digitChar d2 ↔ d1 = d2) := by decide

theorem lexLt_map_digitChar : ∀ (l1 l2 : List Nat), (∀ d ∈ l1, d < 10) → (∀ d ∈ l2, d < 10) →
    (lexLt (l1.map Nat.digitChar) (l2.map Nat.digitChar) = true ↔ lexLtNat l1 l2 = true)
  | [], [], _, _ => by simp [lexLt, lexLtNat]
  | [], _ :: _, _, _ => by simp [lexLt, lexLtNat]
  | _ :: _, [], _, _ => by simp [lexLt, lexLtNat]
  | a :: l1, b :: l2, h1, h2 => by
    have ha : a < 10 := h1 a (by simp)
    have hb : b < 10 := h2 b (by simp)
    simp only [List.map_cons, lexLt, lexLtNat, Bool.or_eq_true, decide_eq_true_eq,
      Bool.and_eq_true, beq_iff_eq,
      lexLt_map_digitChar l1 l2 (fun d hd => h1 d (by simp [hd])) (fun d hd => h2 d (by simp [hd]))]
    rw [digitChar_lt_iff a ha b hb, digitChar_eq_iff a ha b hb]

/-- C7: epoch ids are formatted as zero-padded 20-digit decimals, so the key
strings compare lexicographically exactly as the epoch ids compare
numerically across the whole `u64` range — listing slice keys in
lexicographic order yields strictly increasing epoch-id order. -/
theorem format20_lex_iff_lt (a b : Nat) (ha : a < 2 ^ 64) (hb : b < 2 ^ 64) :
    (format20 a).length = 20 ∧ (lexLt (format20 a) (format20 b) = true ↔ a < b) := by
  have h20 : (2 : Nat) ^ 64 < 10 ^ 20 := by norm_num
  have ha2 : a < 10 ^ 20 := lt_trans ha h20
  have hb2 : b < 10 ^ 20 := lt_trans hb h20
  constructor
  · simp [format20, digitsBE_length]
  · rw [format20, format20,
      lexLt_map_digitChar _ _ (digitsBE_lt_ten 20 a ha2) (digitsBE_lt_ten 20 b hb2)]
    exact lexLtNat_digitsBE 20 a b ha2 hb2

/-- C7 witness at the concrete pair `3 < 7`. -/
theorem format20_lex_iff_lt_witness :
    (format20 3).length = 20 ∧ (lexLt (format20 3) (format20 7) = true ↔ 3 < 7) :=
  format20_lex_iff_lt 3 7 (by norm_num) (by norm_num)

/-! ## Parsing a formatted epoch id recovers it -/

theorem foldl_digitsBE : ∀ (w a acc : Nat), a < 10 ^ w →
    (digitsBE w a).foldl (fun acc d => acc * 10 + d) acc = acc * 10 ^ w + a
  | 0, a, acc, ha => by
    norm_num at ha
    simp [digitsBE, ha]
  | w + 1, a, acc, ha => by
    have hpos : 0 < 10 ^ w := Nat.pos_pow_of_pos w (by norm_num)
    have hma : a % 10 ^ w < 10 ^ w := Nat.mod_lt a hpos
    simp only [digitsBE, List.foldl_cons, foldl_digitsBE w _ _ hma]
    have e := Nat.div_add_mod a (10 ^ w)
    calc (acc * 10 + a / 10 ^ w) * 10 ^ w + a % 10 ^ w
        = acc * 10 ^ (w + 1) + (10 ^ w * (a / 10 ^ w) + a % 10 ^ w) := by ring
      _ = acc * 10 ^ (w + 1) + a := by rw [e]

theorem digitChar_isDigit : ∀ d < 10, (Nat.digitChar d).isDigit = true := by decide

theorem digitChar_ne_plus : ∀ d < 10, Nat.digitChar d ≠ '+' := by decide

theorem parse_fold_digitChar : ∀ (l : List Nat), (∀ d ∈ l, d < 10) → ∀ acc : Nat,
    (l.map Nat.digitChar).foldl (fun acc c => acc * 10 + (c.toNat - 48)) acc =
      l.foldl (fun acc d => acc * 10 + d) acc
  | [], _, acc => rfl
  | d :: l, h, acc => by
    have hd : d < 10 := h d (by simp)
    simp only [List.map_cons, List.foldl_cons,
      parse_fold_digitChar l (fun x hx => h x (by simp [hx]))]
    rw [digitChar_toNat_of_lt d hd]
    congr 1
    omega

theorem stripPlus_of_head_ne (c : Char) (tl : List Char) (hc : c ≠ '+') :
    stripPlus (c :: tl) = c :: tl := by
  unfold stripPlus
  split
  · next rest heq =>
    exfalso
    rw [List.cons.injEq] at heq
    exact hc heq.1
  · rfl

theorem parseU64_format20 (e : Nat) (he : e < 2 ^ 64) : parseU64 (format20 e) = some e := by
  have h20 : (2 : Nat) ^ 64 < 10 ^ 20 := by norm_num
  have he2 : e < 10 ^ 20 := lt_trans he h20
  have hdigits := digitsBE_lt_ten 20 e he2
  have hshape : digitsBE 20 e = e / 10 ^ 19 :: digitsBE 19 (e % 10 ^ 19) := rfl
  have hcons : format20 e =
      Nat.digitChar (e / 10 ^ 19) :: (digitsBE 19 (e % 10 ^ 19)).map Nat.digitChar := by
    rw [format20, hshape, List.map_cons]
  have hhead : Nat.digitChar (e / 10 ^ 19) ≠ '+' :=
    digitChar_ne_plus (e / 10 ^ 19) (hdigits _ (by rw [hshape]; simp))
  have hstrip : stripPlus (format20 e) = format20 e := by
    rw [hcons, stripPlus_of_head_ne _ _ hhead]
  have hall : (format20 e).all Char.isDigit = true := by
    rw [List.all_eq_true]
    intro c hc
    rw [format20, List.mem_map] at hc
    obtain ⟨d, hd, rfl⟩ := hc
    exact digitChar_isDigit d (hdigits d hd)
  have hfold : (format20 e).foldl (fun acc c => acc * 10 + (c.toNat - 48)) 0 = e := by
    rw [format20, parse_fold_digitChar _ hdigits 0, foldl_digitsBE 20 e 0 he2]
    simp
  have he3 : e < 18446744073709551616 := lt_of_lt_of_le he (by norm_num)
  simp only [parseU64, hstrip, hall, hfold]
  rw [hcons]
  simp [he3]

/-! ## Committing one slice and restarting -/

theorem stripPrefixSlash_joinPath (p name : List Char) :
    stripPrefixSlash (joinPath p name) p = some name := by
  have hassoc : joinPath p name = (p ++ ['/']) ++ name := by
    simp [joinPath]
  have hne : joinPath p name ≠ p := by
    intro h
    have := congrArg List.length h
    simp [joinPath] at this
  have hpre : (p ++ ['/']).isPrefixOf (joinPath p name) = true := by
    rw [hassoc, List.isPrefixOf_iff_prefix]
    exact List.prefix_append _ _
  have hdrop : (joinPath p name).drop (p.length + 1) = name := by
    rw [hassoc]
    exact List.drop_left' (by simp)
  rw [stripPrefixSlash, if_neg hne, if_pos hpre, hdrop]

theorem applyCommands_single_upload (key : List Char) (b1 b2 b3 : List Nat) :
    applyCommands ⟨[], []⟩
      [.createUpload key, .uploadChunk key b1, .uploadChunk key b2, .uploadChunk key b3,
       .completeUpload key] =
      ⟨[], [(key, b1 ++ (b2 ++ b3))]⟩ := by
  simp [applyCommands, applyCommand, appendChunk, removePending, lookupBytes]

/-- Recovering from a single well-formed slice object. -/
theorem read_single_slice (pfx : List Char) (epoch_id : Nat) (ss : SourceStates)
    (delta : List RecordData) (download : List Char → List Nat)
    (he : epoch_id < 2 ^ 64) (hss : wfSourceStates ss = true)
    (hrec : wfRecords delta = true)
    (hdl : download (slice_key pfx epoch_id) =
      u64ToLeBytes (serializeSourceStates ss).length ++
        (serializeSourceStates ss ++ encodeRecords delta)) :
    read_record_store_slices download pfx [[slice_key pfx epoch_id]] =
      .ok (⟨delta⟩,
        ⟨some ⟨1, Nat.one_pos, processorPrefixOf pfx (format20 epoch_id), epoch_id, ss⟩⟩) := by
  have hread : read_record_store_slice_data (download (slice_key pfx epoch_id)) =
      .ok (ss, encodeRecords delta) := by
    rw [hdl]
    exact read_slice_of_serialized _ _ _ (serializeSourceStates_length_lt ss hss)
      (bincodeDeserialize_serializeSourceStates ss hss)
  have hstrip : stripPrefixSlash (slice_key pfx epoch_id) (recordStorePrefixOf pfx) =
      some (format20 epoch_id) := stripPrefixSlash_joinPath _ _
  have hupd : updateLastCheckpoint pfx download none [slice_key pfx epoch_id] =
      .ok (some ⟨1, Nat.one_pos, processorPrefixOf pfx (format20 epoch_id), epoch_id, ss⟩) := by
    simp only [updateLastCheckpoint, List.getLast_singleton, hstrip,
      parseU64_format20 epoch_id he, hread, List.length_cons, List.length_nil]
  have hext : extendRecordStoreAll download ⟨[]⟩ [slice_key pfx epoch_id] =
      .ok ⟨delta⟩ := by
    simp only [extendRecordStoreAll, extendRecordStore, hread,
      ProcessorRecordStore.deserialize_and_extend, decodeRecords_encodeRecords delta hrec,
      Option.map_some', List.nil_append]
  simp only [read_record_store_slices, recoveryLoop, processPage, hupd, hext]

/-- C1: committing one slice at epoch `E` (dropping a `CheckpointWriter` whose
upload worker is alive), draining the worker, and constructing a fresh
`CheckpointFactory` over the same storage directory yields a checkpoint whose
`next_epoch_id()` is `E + 1` and whose `get_source_state(h)` equals the value
committed for `h`, for every node handle `h`. -/
theorem commit_then_fresh_factory (pfx : List Char) (rs : ProcessorRecordStore)
    (idx epoch_id : Nat) (ss : SourceStates)
    (he : epoch_id < 2 ^ 64) (hss : wfSourceStates ss = true)
    (hrec : wfRecords (rs.records.drop idx) = true) :
    ∃ rs2 cp, commitAndRestart pfx rs idx epoch_id ss = .ok (rs2, cp) ∧
      cp.next_epoch_id = epoch_id + 1 ∧
      ∀ h : NodeHandle, cp.get_source_state h = ss.get h := by
  have heq : commitAndRestart pfx rs idx epoch_id ss =
      .ok (⟨rs.records.drop idx⟩,
        ⟨some ⟨1, Nat.one_pos, processorPrefixOf pfx (format20 epoch_id), epoch_id, ss⟩⟩) := by
    have htrace : enqueuedCommands
        (write_record_store_slice rs idx true (slice_key pfx epoch_id) ss).2.1 =
        [.createUpload (slice_key pfx epoch_id),
         .uploadChunk (slice_key pfx epoch_id)
           (u64ToLeBytes (serializeSourceStates ss).length),
         .uploadChunk (slice_key pfx epoch_id) (serializeSourceStates ss),
         .uploadChunk (slice_key pfx epoch_id) (rs.serialize_slice idx).1,
         .completeUpload (slice_key pfx epoch_id)] := rfl
    rw [commitAndRestart, htrace, applyCommands_single_upload]
    have hlist : listObjects ⟨[], [(slice_key pfx epoch_id,
        u64ToLeBytes (serializeSourceStates ss).length ++
          (serializeSourceStates ss ++ (rs.serialize_slice idx).1))]⟩ =
        [slice_key pfx epoch_id] := rfl
    rw [hlist]
    exact read_single_slice pfx epoch_id ss (rs.records.drop idx) _ he hss hrec
      (by simp [lookupBytes, ProcessorRecordStore.serialize_slice])
  exact ⟨_, _, heq, rfl, fun h => rfl⟩

/-- C1 witness: two records, committed at epoch 42 with a one-entry map. -/
theorem commit_then_fresh_factory_witness :
    ∃ rs2 cp, commitAndRestart ['p'] ⟨[[1], [2]]⟩ 0 42
        [(⟨some 1, [105, 100]⟩, ⟨1, 1⟩)] = .ok (rs2, cp) ∧
      cp.next_epoch_id = 42 + 1 ∧
      ∀ h : NodeHandle, cp.get_source_state h =
        SourceStates.get [(⟨some 1, [105, 100]⟩, ⟨1, 1⟩)] h :=
  commit_then_fresh_factory ['p'] ⟨[[1], [2]]⟩ 0 42 [(⟨some 1, [105, 100]⟩, ⟨1, 1⟩)]
    (by norm_num) (by decide) (by decide)

/-! ## The monotone record index invariant -/

theorem commitSlices_cons (rs : ProcessorRecordStore) (rest : List ProcessorRecordStore)
    (i : Nat) :
    commitSlices i (rs :: rest) =
      ((i, rs.records.length - i) ::
        (commitSlices (i + (rs.records.length - i)) rest).1,
       (commitSlices (i + (rs.records.length - i)) rest).2) := rfl

theorem commitSlices_from_ge : ∀ (stores : List ProcessorRecordStore) (i : Nat),
    ∀ s ∈ (commitSlices i stores).1, i ≤ s.1
  | [], _, s, hs => by simp [commitSlices] at hs
  | rs :: rest, i, s, hs => by
    rw [commitSlices_cons] at hs
    rcases List.mem_cons.mp hs with rfl | hs
    · exact le_refl i
    · exact le_trans (Nat.le_add_right _ _) (commitSlices_from_ge rest _ s hs)

theorem commitSlices_final_ge : ∀ (stores : List ProcessorRecordStore) (i : Nat),
    i ≤ (commitSlices i stores).2
  | [], _ => le_refl _
  | rs :: rest, i => by
    rw [commitSlices_cons]
    exact le_trans (Nat.le_add_right _ _) (commitSlices_final_ge rest _)

/-- C4: across every sequence of successful `write_record_store_slice` calls
on a factory whose `next_record_index` starts at the recovered
`record_store.num_records()` (and whose record store only grows between
calls), the index never decreases, the `[from, from+n)` ranges of successive
slices are pairwise disjoint, and their union together with the recovered
prefix `[0, i0)` is exactly `[0, total_records)`. -/
theorem commitSlices_disjoint_cover : ∀ (stores : List ProcessorRecordStore) (i0 : Nat),
    ascendingFrom i0 stores = true →
    i0 ≤ (commitSlices i0 stores).2 ∧
    List.Pairwise (fun s t => s.1 + s.2 ≤ t.1) (commitSlices i0 stores).1 ∧
    (∀ x : Nat,
      (x < i0 ∨ ∃ s ∈ (commitSlices i0 stores).1, s.1 ≤ x ∧ x < s.1 + s.2) ↔
        x < (commitSlices i0 stores).2) ∧
    ∀ rsLast ∈ stores.getLast?, (commitSlices i0 stores).2 = rsLast.num_records
  | [], i0, _ => by
    refine ⟨le_refl _, List.Pairwise.nil, ?_, ?_⟩
    · intro x
      simp [commitSlices]
    · intro rsLast h
      simp at h
  | rs :: rest, i0, hasc => by
    simp only [ascendingFrom, Bool.and_eq_true, decide_eq_true_eq] at hasc
    obtain ⟨h1, h2⟩ := hasc
    have hN : i0 + (rs.records.length - i0) = rs.records.length := by omega
    have ih := commitSlices_disjoint_cover rest rs.records.length h2
    obtain ⟨ihle, ihpw, ihcov, ihlast⟩ := ih
    rw [commitSlices_cons, hN]
    refine ⟨le_trans h1 ihle, ?_, ?_, ?_⟩
    · refine List.Pairwise.cons ?_ ihpw
      intro t ht
      have := commitSlices_from_ge rest rs.records.length t ht
      simp only
      omega
    · intro x
      rw [List.exists_mem_cons_iff, ← ihcov x]
      constructor
      · rintro (h | h | h)
        · left
          omega
        · simp only at h
          left
          omega
        · right
          exact h
      · rintro (h | h)
        · rcases Nat.lt_or_ge x i0 with h0 | h0
          · exact Or.inl h0
          · refine Or.inr (Or.inl ?_)
            simp only
            omega
        · exact Or.inr (Or.inr h)
    · intro rsLast hlast
      cases rest with
      | nil =>
        simp only [List.getLast?_singleton, Option.mem_def, Option.some.injEq] at hlast
        subst hlast
        rfl
      | cons r t =>
        rw [List.getLast?_cons_cons] at hlast
        exact ihlast rsLast hlast

/-- C4 witness: recovered prefix of 1 record, then stores of 3 and 5 records. -/
theorem commitSlices_disjoint_cover_witness :
    1 ≤ (commitSlices 1 [⟨[[0], [1], [2]]⟩, ⟨[[0], [1], [2], [3], [4]]⟩]).2 ∧
    List.Pairwise (fun s t => s.1 + s.2 ≤ t.1)
      (commitSlices 1 [⟨[[0], [1], [2]]⟩, ⟨[[0], [1], [2], [3], [4]]⟩]).1 ∧
    (∀ x : Nat,
      (x < 1 ∨ ∃ s ∈ (commitSlices 1 [⟨[[0], [1], [2]]⟩, ⟨[[0], [1], [2], [3], [4]]⟩]).1,
        s.1 ≤ x ∧ x < s.1 + s.2) ↔
        x < (commitSlices 1 [⟨[[0], [1], [2]]⟩, ⟨[[0], [1], [2], [3], [4]]⟩]).2) ∧
    ∀ rsLast ∈ ([⟨[[0], [1], [2]]⟩,
        (⟨[[0], [1], [2], [3], [4]]⟩ : ProcessorRecordStore)] : List ProcessorRecordStore).getLast?,
      (commitSlices 1 [⟨[[0], [1], [2]]⟩, ⟨[[0], [1], [2], [3], [4]]⟩]).2 = rsLast.num_records :=
  commitSlices_disjoint_cover [⟨[[0], [1], [2]]⟩, ⟨[[0], [1], [2], [3], [4]]⟩] 1 (by decide)

/-! ## Key validation during recovery only inspects the last object of a page -/

/-- A malformed slice key under the record-store prefix: `p/record_store/x`. -/
def c5BadKey : List Char := joinPath (recordStorePrefixOf ['p']) ['x']

/-- A well-formed slice key: `p/record_store/<20-digit 5>`. -/
def c5GoodKey : List Char := slice_key ['p'] 5

/-- Every object holds the same well-formed slice bytes: empty source states
(8-byte length 8, then 8 zero bytes) and an empty record delta. -/
def c5Download : List Char → List Nat := fun _ =>
  u64ToLeBytes 8 ++ (u64ToLeBytes 0 ++ u64ToLeBytes 0)

/-- C5 counterexample: a listing page whose first key `p/record_store/x` does
not parse as a `u64`, followed by a well-formed last key. Recovery succeeds —
it does not fail with `UnrecognizedCheckpoint("p/record_store/x")` — because
only the last object of each page is validated. -/
theorem recovery_ignores_non_last_bad_key :
    parseU64 ['x'] = none ∧
    stripPrefixSlash c5BadKey (recordStorePrefixOf ['p']) = some ['x'] ∧
    read_record_store_slices c5Download ['p'] [[c5BadKey, c5GoodKey]] =
      .ok (⟨[]⟩, ⟨some ⟨2, by norm_num, processorPrefixOf ['p'] (format20 5), 5, []⟩⟩) ∧
    read_record_store_slices c5Download ['p'] [[c5BadKey, c5GoodKey]] ≠
      .error (.unrecognizedCheckpoint c5BadKey) := by
  refine ⟨by decide, by decide, ?_, ?_⟩
  · rfl
  · intro hcon
    rw [show read_record_store_slices c5Download ['p'] [[c5BadKey, c5GoodKey]] =
      .ok (⟨[]⟩, ⟨some ⟨2, by norm_num, processorPrefixOf ['p'] (format20 5), 5, []⟩⟩)
      from rfl] at hcon
    exact Except.noConfusion hcon

/-- C5 amended: during recovery, when the **last** listed object of a page has
a key that does not strip the record-store prefix cleanly or does not parse as
a `u64`, recovery fails with `UnrecognizedCheckpoint` carrying that key (keys
in non-last positions of a page are not validated). -/
theorem recovery_bad_last_key (pfx : List Char) (download : List Char → List Nat)
    (page : List (List Char)) (key : List Char)
    (hlast : page.getLast? = some key)
    (hbad : stripPrefixSlash key (recordStorePrefixOf pfx) = none ∨
      ∃ name, stripPrefixSlash key (recordStorePrefixOf pfx) = some name ∧
        parseU64 name = none) :
    read_record_store_slices download pfx [page] =
      .error (.unrecognizedCheckpoint key) := by
  cases page with
  | nil => simp at hlast
  | cons a rest =>
    have hget : (a :: rest).getLast (List.cons_ne_nil a rest) = key := by
      rw [List.getLast?_eq_getLast (a :: rest) (List.cons_ne_nil a rest)] at hlast
      exact Option.some.inj hlast
    rcases hbad with hb | ⟨name, hs, hp⟩
    · simp [read_record_store_slices, recoveryLoop, processPage, updateLastCheckpoint,
        hget, hb]
    · simp [read_record_store_slices, recoveryLoop, processPage, updateLastCheckpoint,
        hget, hs, hp]

/-- C5 amended witness: a single page whose only (hence last) key is
`p/record_store/x`. -/
theorem recovery_bad_last_key_witness :
    read_record_store_slices c5Download ['p'] [[c5BadKey]] =
      .error (.unrecognizedCheckpoint c5BadKey) :=
  recovery_bad_last_key ['p'] c5Download [c5BadKey] c5BadKey (by decide)
    (Or.inr ⟨['x'], by decide, by decide⟩)

/-! ## What a successful recovery returns -/

def countSlices : Option Checkpoint → Nat
  | none => 0
  | some c => c.num_slices

theorem extendRecordStoreAll_ok : ∀ (page : List (List Char))
    (download : List Char → List Nat) (rs rs2 : ProcessorRecordStore),
    extendRecordStoreAll download rs page = .ok rs2 →
    rs2.records = rs.records ++ ((page.map (sliceDelta download)).flatten)
  | [], download, rs, rs2, hok => by
    simp only [extendRecordStoreAll] at hok
    cases hok
    simp
  | key :: rest, download, rs, rs2, hok => by
    simp only [extendRecordStoreAll, extendRecordStore] at hok
    cases hread : read_record_store_slice_data (download key) with
    | error e =>
      rw [hread] at hok
      cases hok
    | ok p =>
      rw [hread] at hok
      obtain ⟨ss, d⟩ := p
      cases hdec : decodeRecords d with
      | none =>
        simp only [ProcessorRecordStore.deserialize_and_extend, hdec, Option.map_none'] at hok
        cases hok
      | some l =>
        simp only [ProcessorRecordStore.deserialize_and_extend, hdec, Option.map_some'] at hok
        have ih := extendRecordStoreAll_ok rest download ⟨rs.records ++ l⟩ rs2 hok
        have hdelta : sliceDelta download key = l := by
          simp [sliceDelta, hread, hdec]
        rw [ih]
        simp [hdelta]

theorem updateLastCheckpoint_ok (pfx : List Char) (download : List Char → List Nat)
    (last : Option Checkpoint) (page : List (List Char)) (c2 : Option Checkpoint)
    (hok : updateLastCheckpoint pfx download last page = .ok c2) :
    (page = [] ∧ c2 = last) ∨
    ∃ key name epoch_id source_states restBytes,
      page.getLast? = some key ∧
      stripPrefixSlash key (recordStorePrefixOf pfx) = some name ∧
      parseU64 name = some epoch_id ∧
      read_record_store_slice_data (download key) = .ok (source_states, restBytes) ∧
      ∃ c, c2 = some c ∧
        c.num_slices = countSlices last + page.length ∧
        c.epoch_id = epoch_id ∧
        c.source_states = source_states ∧
        c.processor_prefix = processorPrefixOf pfx name := by
  cases page with
  | nil =>
    simp only [updateLastCheckpoint] at hok
    cases hok
    exact Or.inl ⟨rfl, rfl⟩
  | cons a rest =>
    refine Or.inr ?_
    simp only [updateLastCheckpoint] at hok
    cases hstrip : stripPrefixSlash ((a :: rest).getLast (List.cons_ne_nil a rest))
        (recordStorePrefixOf pfx) with
    | none =>
      rw [hstrip] at hok
      cases hok
    | some name =>
      rw [hstrip] at hok
      simp only at hok
      cases hparse : parseU64 name with
      | none =>
        rw [hparse] at hok
        cases hok
      | some epoch_id =>
        rw [hparse] at hok
        simp only at hok
        cases hread : read_record_store_slice_data
            (download ((a :: rest).getLast (List.cons_ne_nil a rest))) with
        | error e =>
          rw [hread] at hok
          cases hok
        | ok p =>
          rw [hread] at hok
          simp only at hok
          obtain ⟨source_states, restBytes⟩ := p
          refine ⟨(a :: rest).getLast (List.cons_ne_nil a rest), name, epoch_id,
            source_states, restBytes,
            (List.getLast?_eq_getLast (a :: rest) (List.cons_ne_nil a rest)),
            hstrip, hparse, hread, ?_⟩
          cases last with
          | none =>
            cases hok
            exact ⟨_, rfl, (Nat.zero_add _).symm, rfl, rfl, rfl⟩
          | some lc =>
            cases hok
            exact ⟨_, rfl, rfl, rfl, rfl, rfl⟩

theorem recoveryLoop_ok : ∀ (pages : List (List (List Char))) (pfx : List Char)
    (download : List Char → List Nat) (st st2 : RecoveryState),
    recoveryLoop pfx download st pages = .ok st2 →
    st2.record_store.records =
      st.record_store.records ++ ((pages.flatten.map (sliceDelta download)).flatten) ∧
    countSlices st2.last_checkpoint =
      countSlices st.last_checkpoint + pages.flatten.length ∧
    ((pages.flatten = [] ∧ st2.last_checkpoint = st.last_checkpoint) ∨
      ∃ key name epoch_id restBytes c,
        pages.flatten.getLast? = some key ∧
        stripPrefixSlash key (recordStorePrefixOf pfx) = some name ∧
        parseU64 name = some epoch_id ∧
        read_record_store_slice_data (download key) = .ok (c.source_states, restBytes) ∧
        st2.last_checkpoint = some c ∧
        c.epoch_id = epoch_id ∧
        c.processor_prefix = processorPrefixOf pfx name)
  | [], pfx, download, st, st2, hok => by
    simp only [recoveryLoop] at hok
    cases hok
    exact ⟨by simp, by simp, Or.inl ⟨rfl, rfl⟩⟩
  | page :: rest, pfx, download, st, st2, hok => by
    simp only [recoveryLoop] at hok
    cases hpp : processPage pfx download st page with
    | error e =>
      rw [hpp] at hok
      cases hok
    | ok st1 =>
      rw [hpp] at hok
      simp only [processPage] at hpp
      cases hupd : updateLastCheckpoint pfx download st.last_checkpoint page with
      | error e =>
        rw [hupd] at hpp
        cases hpp
      | ok last1 =>
        rw [hupd] at hpp
        cases hext : extendRecordStoreAll download st.record_store page with
        | error e =>
          rw [hext] at hpp
          cases hpp
        | ok rs1 =>
          rw [hext] at hpp
          cases hpp
          have ih := recoveryLoop_ok rest pfx download ⟨rs1, last1⟩ st2 hok
          obtain ⟨ihrec, ihcount, ihlast⟩ := ih
          have hrs1 := extendRecordStoreAll_ok page download st.record_store rs1 hext
          have hupdc := updateLastCheckpoint_ok pfx download st.last_checkpoint page last1 hupd
      -- record store
          refine ⟨?_, ?_, ?_⟩
          · rw [ihrec, hrs1]
            simp [List.append_assoc]
          · rcases hupdc with ⟨hpe, hlasteq⟩ | ⟨key, name, e, ss, rb, hgl, hs, hp, hr, c, hceq, hcount, _, _, _⟩
            · subst hpe
              rw [ihcount, hlasteq]
              simp
            · rw [ihcount, hceq]
              simp only [countSlices, hcount]
              simp [List.length_append]
              omega
          · rcases ihlast with ⟨hfe, hlasteq2⟩ | ⟨key, name, e, rb, c, hgl, hs, hp, hr, hceq, hce, hcp⟩
            · rcases hupdc with ⟨hpe, hlasteq⟩ | ⟨key, name, e, ss, rb, hgl, hs, hp, hr, c, hceq, hcount, hce, hcss, hcpp⟩
              · subst hpe
                refine Or.inl ⟨?_, ?_⟩
                · simp [hfe]
                · rw [hlasteq2, hlasteq]
              · refine Or.inr ⟨key, name, e, rb, c, ?_, hs, hp, ?_, ?_, hce, hcpp⟩
                · rw [List.flatten_cons, hfe, List.append_nil]
                  exact hgl
                · rw [← hcss] at hr
                  exact hr
                · rw [hlasteq2, hceq]
            · have hfne : rest.flatten ≠ [] := by
                intro hcon
                rw [hcon] at hgl
                simp at hgl
              refine Or.inr ⟨key, name, e, rb, c, ?_, hs, hp, hr, hceq, hce, hcp⟩
              rw [List.flatten_cons, List.getLast?_append_of_ne_nil page hfne]
              exact hgl

/-- C8: for every paginated listing, a successful recovery returns a
descriptor whose `num_slices` is the total number of objects across all
pages, whose `epoch_id`, `source_states` and `processor_prefix` come from the
last object of the last non-empty page (the last key overall), and a record
store rebuilt from every object's delta in listing order. -/
theorem recovery_descriptor_from_listing (download : List Char → List Nat)
    (pfx : List Char) (pages : List (List (List Char)))
    (rs2 : ProcessorRecordStore) (cp : OptionCheckpoint)
    (hok : read_record_store_slices download pfx pages = .ok (rs2, cp))
    (hne : pages.flatten ≠ []) :
    rs2.records = ((pages.flatten.map (sliceDelta download)).flatten) ∧
    ∃ c key name epoch_id restBytes,
      cp.checkpoint = some c ∧
      c.num_slices = pages.flatten.length ∧
      pages.flatten.getLast? = some key ∧
      stripPrefixSlash key (recordStorePrefixOf pfx) = some name ∧
      parseU64 name = some epoch_id ∧
      read_record_store_slice_data (download key) = .ok (c.source_states, restBytes) ∧
      c.epoch_id = epoch_id ∧
      c.processor_prefix = processorPrefixOf pfx name := by
  simp only [read_record_store_slices] at hok
  cases hloop : recoveryLoop pfx download ⟨⟨[]⟩, none⟩ pages with
  | error e =>
    rw [hloop] at hok
    cases hok
  | ok st =>
    rw [hloop] at hok
    cases hok
    obtain ⟨hrec, hcount, hlast⟩ :=
      recoveryLoop_ok pages pfx download ⟨⟨[]⟩, none⟩ st hloop
    rcases hlast with ⟨hfe, _⟩ | ⟨key, name, e, rb, c, hgl, hs, hp, hr, hceq, hce, hcp⟩
    · exact absurd hfe hne
    · refine ⟨by simpa using hrec, c, key, name, e, rb, hceq, ?_, hgl, hs, hp, hr, hce, hcp⟩
      rw [hceq] at hcount
      simpa [countSlices] using hcount

/-- C8 witness: two pages of one slice object each (epochs 5 and 6); the
descriptor counts both slices and takes its fields from the last object. -/
theorem recovery_descriptor_from_listing_witness :
    (⟨[]⟩ : ProcessorRecordStore).records =
      ((([[slice_key ['p'] 5], [slice_key ['p'] 6]] :
          List (List (List Char))).flatten.map (sliceDelta c5Download)).flatten) ∧
    ∃ c key name epoch_id restBytes,
      (⟨some ⟨2, by norm_num, processorPrefixOf ['p'] (format20 6), 6, []⟩⟩ :
          OptionCheckpoint).checkpoint = some c ∧
      c.num_slices =
        ([[slice_key ['p'] 5], [slice_key ['p'] 6]] : List (List (List Char))).flatten.length ∧
      ([[slice_key ['p'] 5], [slice_key ['p'] 6]] :
          List (List (List Char))).flatten.getLast? = some key ∧
      stripPrefixSlash key (recordStorePrefixOf ['p']) = some name ∧
      parseU64 name = some epoch_id ∧
      read_record_store_slice_data (c5Download key) = .ok (c.source_states, restBytes) ∧
      c.epoch_id = epoch_id ∧
      c.processor_prefix = processorPrefixOf ['p'] name :=
  recovery_descriptor_from_listing c5Download ['p']
    [[slice_key ['p'] 5], [slice_key ['p'] 6]] ⟨[]⟩
    ⟨some ⟨2, by norm_num, processorPrefixOf ['p'] (format20 6), 6, []⟩⟩
    rfl (by decide)

end Dozer
